import Mathlib

/-!
# Verification of the APDUDS attribute-calculation engine

Shallow embedding of `src/Scripts/attribute_calculator.py` (the flow-direction
and depth solver, flow aggregator and diameter selector of the APDUDS storm
water drainage design tool), together with proofs and refutations of the
frozen specification claims about it.

Modelling conventions:
* Node indices are `ℕ`; depths, conduit lengths, slopes and flows are `ℚ`
  (the Python code works on IEEE floats; exact rationals expose the
  arithmetic content of the algorithms without rounding noise).
* A pandas column indexed by node becomes a function `ℕ → ℚ` (or
  `ℕ → Option _`), mutated through `Function.update`.
* The `edges.at[edge_set.index(set([a, b])), "length"]` lookup (find the
  conduit whose unordered endpoint set is `{a, b}` and read its length) is
  abstracted as a length function `len : ℕ → ℕ → ℚ`; every call site applies
  it as `len downstream upstream`, so the unordered-set symmetry of the
  Python lookup is never needed.
-/

namespace APDUDS

/-- One iteration of the inner loop of `uphold_max_slope`
(`attribute_calculator.py` lines 216–221): `lo` is `lower_node = path[-1-i]`
(the downstream node), `hi` is `higher_node = path[-2-i]` (the upstream node).
The guard is transcribed exactly as written in the source,
`nodes.at[lower] - nodes.at[higher] / length > max_slope`, i.e. with the
division binding tighter than the subtraction (Python operator precedence);
the write is `nodes.at[higher] = nodes.at[lower] - length * max_slope`. -/
def stepPair (ms : ℚ) (len : ℕ → ℕ → ℚ) (c : ℕ → ℚ) (lo hi : ℕ) : ℕ → ℚ :=
  if c lo - c hi / len lo hi > ms then
    Function.update c hi (c lo - len lo hi * ms)
  else
    c

/-- The inner `for i in range(len(path)-1)` loop of `uphold_max_slope`,
expressed on the reversed path: the source walks pairs
`(path[-1-i], path[-2-i])` for `i = 0 .. len(path)-2`, which are exactly the
consecutive pairs of `path.reverse`. -/
def walkRev (ms : ℚ) (len : ℕ → ℕ → ℚ) (c : ℕ → ℚ) : List ℕ → (ℕ → ℚ)
  | [] => c
  | [_] => c
  | x :: y :: rest => walkRev ms len (stepPair ms len c x y) (y :: rest)

/-- `uphold_max_slope` (`attribute_calculator.py` lines 201–223): for each
node row in order, walk that node's stored `path` backward from the outfall
end, correcting depths.  `paths` lists every node's stored `path` column in
row order; `c` is the `depth` column. -/
def uphold_max_slope (ms : ℚ) (len : ℕ → ℕ → ℚ) (paths : List (List ℕ))
    (c : ℕ → ℚ) : ℕ → ℚ :=
  paths.foldl (fun c p => walkRev ms len c p.reverse) c

/-- `set_depth` (`attribute_calculator.py` lines 171–199): walk `path`
forward; for each consecutive pair `(from_node, to_node)` compute
`new_to_depth = depth(from) + min_slope * length` and raise `depth(to)` to it
when that is strictly deeper.  The conduit-length lookup is again the
abstract symmetric function `len`. -/
def set_depth (mns : ℚ) (len : ℕ → ℕ → ℚ) (c : ℕ → ℚ) : List ℕ → (ℕ → ℚ)
  | [] => c
  | [_] => c
  | x :: y :: rest =>
      let nd := c x + mns * len x y
      set_depth mns len (if nd > c y then Function.update c y nd else c) (y :: rest)

/-- **C1.** The max-slope pass as implemented does *not* establish
`depth(downstream) - depth(upstream) ≤ max_slope * length`: the guard on
line 220 of `attribute_calculator.py` reads
`nodes.at[lower] - nodes.at[higher] / length > max_slope`, missing the
parentheses around the depth difference, so for the conduit of length `1/2`
below (true slope `(1 - 9/10) / (1/2) = 1/5 > 1/400`) the buggy guard
evaluates to `1 - (9/10)/(1/2) = -4/5 > 1/400`, which is false, and no
correction is made.  Node `0` drains to outfall `1` (`paths = [[0,1],[1]]`,
`min_slope` already satisfied); after the pass the adjacent pair still
violates the bound claimed by the spec. -/
theorem uphold_max_slope_bug_violates_bound :
    (uphold_max_slope (1/400) (fun _ _ => (1/2 : ℚ)) [[0, 1], [1]]
        (fun n => if n = 0 then (9/10 : ℚ) else 1)) 1
      - (uphold_max_slope (1/400) (fun _ _ => (1/2 : ℚ)) [[0, 1], [1]]
        (fun n => if n = 0 then (9/10 : ℚ) else 1)) 0
      > (1/400) * (1/2) := by
  norm_num [uphold_max_slope, walkRev, stepPair, Function.update]

/-- **C2.** The same precedence slip makes `uphold_max_slope` *decrease* a
depth below the configured minimum: with both depths at the initial
`min_depth = 11/10` and a conduit of length `2`, the true slope is `0`
(nothing should change), but the buggy guard evaluates
`11/10 - (11/10)/2 = 11/20 > 1/400`, so the upstream node is written to
`11/10 - 2 * (1/400) = 219/200 < 11/10` — a write that stores a value
strictly smaller than the one it replaces. -/
theorem uphold_max_slope_bug_decreases_depth :
    (uphold_max_slope (1/400) (fun _ _ => (2 : ℚ)) [[0, 1], [1]]
        (fun _ => (11/10 : ℚ))) 0 < 11/10 := by
  norm_num [uphold_max_slope, walkRev, stepPair, Function.update]

/-! ## Idempotence analysis of `uphold_max_slope` (claim C8)

The pass walks every node's stored path backward from the outfall end.  When
all stored paths follow one common downstream map (every node has a single
downstream neighbour, as produced by the solver whenever shortest paths are
unique), each node's depth converges after its first visit to a fixed value
computed from the outfall downward, and a second run of the pass changes
nothing.  `fixFuel`/`fixDepth` compute that fixed value by recursion on a
rank that decreases toward the outfall. -/

/-- Fuel-indexed fixed-point depth: the value a node's depth stabilises at
once the whole chain from the outfall (the `parent` chain) below it has been
walked.  Transcribes the (buggy) guard and write of `uphold_max_slope`:
`l` is the downstream parent of `h`. -/
def fixFuel (ms : ℚ) (len : ℕ → ℕ → ℚ) (parent : ℕ → Option ℕ) (d : ℕ → ℚ) :
    ℕ → ℕ → ℚ
  | 0 => d
  | fuel + 1 => fun h =>
    match parent h with
    | none => d h
    | some l =>
      if fixFuel ms len parent d fuel l - d h / len l h > ms then
        fixFuel ms len parent d fuel l - len l h * ms
      else d h

/-- The stable depth of a node: `fixFuel` with enough fuel for its rank. -/
def fixDepth (ms : ℚ) (len : ℕ → ℕ → ℚ) (parent : ℕ → Option ℕ) (rk : ℕ → ℕ)
    (d : ℕ → ℚ) (h : ℕ) : ℚ :=
  fixFuel ms len parent d (rk h + 1) h

/-- A reversed stored path is a chain out of the outfall: its head is a root
of the downstream map and each later element has the previous one as its
downstream parent. -/
def chainToRoot (parent : ℕ → Option ℕ) : List ℕ → Prop
  | [] => False
  | x :: rest => parent x = none ∧ List.Chain' (fun a b => parent b = some a) (x :: rest)

theorem fixFuel_succ (ms : ℚ) (len : ℕ → ℕ → ℚ) (parent : ℕ → Option ℕ)
    (d : ℕ → ℚ) (fuel h : ℕ) :
    fixFuel ms len parent d (fuel + 1) h =
      match parent h with
      | none => d h
      | some l =>
        if fixFuel ms len parent d fuel l - d h / len l h > ms then
          fixFuel ms len parent d fuel l - len l h * ms
        else d h := rfl

theorem stepPair_apply_ne (ms : ℚ) (len : ℕ → ℕ → ℚ) (c : ℕ → ℚ) (lo hi z : ℕ)
    (hz : z ≠ hi) : stepPair ms len c lo hi z = c z := by
  unfold stepPair
  split
  · exact Function.update_noteq hz _ _
  · rfl

theorem fixFuel_congr (ms : ℚ) (len : ℕ → ℕ → ℚ) (parent : ℕ → Option ℕ)
    (rk : ℕ → ℕ) (d : ℕ → ℚ) (hwf : ∀ a b, parent a = some b → rk b < rk a) :
    ∀ (f g h : ℕ), rk h < f → rk h < g →
      fixFuel ms len parent d f h = fixFuel ms len parent d g h := by
  intro f
  induction f with
  | zero => exact fun g h hf _ => absurd hf (Nat.not_lt_zero _)
  | succ f ih =>
    intro g h hf hg
    cases g with
    | zero => exact absurd hg (Nat.not_lt_zero _)
    | succ g =>
      rw [fixFuel_succ, fixFuel_succ]
      cases hp : parent h with
      | none => rfl
      | some l =>
        have hl := hwf h l hp
        dsimp only
        rw [ih g l (by omega) (by omega)]

theorem fixDepth_none (ms : ℚ) (len : ℕ → ℕ → ℚ) (parent : ℕ → Option ℕ)
    (rk : ℕ → ℕ) (d : ℕ → ℚ) (h : ℕ) (hp : parent h = none) :
    fixDepth ms len parent rk d h = d h := by
  unfold fixDepth
  rw [fixFuel_succ, hp]

theorem fixDepth_some (ms : ℚ) (len : ℕ → ℕ → ℚ) (parent : ℕ → Option ℕ)
    (rk : ℕ → ℕ) (d : ℕ → ℚ) (hwf : ∀ a b, parent a = some b → rk b < rk a)
    (h l : ℕ) (hp : parent h = some l) :
    fixDepth ms len parent rk d h =
      if fixDepth ms len parent rk d l - d h / len l h > ms then
        fixDepth ms len parent rk d l - len l h * ms
      else d h := by
  unfold fixDepth
  rw [fixFuel_succ, hp]
  dsimp only
  rw [fixFuel_congr ms len parent rk d hwf (rk h) (rk l + 1) l (hwf h l hp)
    (Nat.lt_succ_self _)]

/-- Re-walking a pair whose two depths already sit at their stable values
changes nothing. -/
theorem stepPair_fix (ms : ℚ) (len : ℕ → ℕ → ℚ) (parent : ℕ → Option ℕ)
    (rk : ℕ → ℕ) (d : ℕ → ℚ) (hwf : ∀ a b, parent a = some b → rk b < rk a)
    (c : ℕ → ℚ) (lo hi : ℕ) (hp : parent hi = some lo)
    (hlo : c lo = fixDepth ms len parent rk d lo)
    (hhi : c hi = fixDepth ms len parent rk d hi) :
    stepPair ms len c lo hi = c := by
  have hF := fixDepth_some ms len parent rk d hwf hi lo hp
  by_cases h0 : fixDepth ms len parent rk d lo - d hi / len lo hi > ms
  · have hv : fixDepth ms len parent rk d hi =
        fixDepth ms len parent rk d lo - len lo hi * ms := by
      rw [hF, if_pos h0]
    unfold stepPair
    split
    · rw [hlo, ← hv, ← hhi, Function.update_eq_self]
    · rfl
  · have hv : fixDepth ms len parent rk d hi = d hi := by rw [hF, if_neg h0]
    unfold stepPair
    rw [if_neg]
    rw [hlo, hhi, hv]
    exact h0

/-- Walking a pair whose downstream depth is stable drives the upstream
depth to its stable value (whether it was still the input depth or already
stable). -/
theorem stepPair_establish (ms : ℚ) (len : ℕ → ℕ → ℚ) (parent : ℕ → Option ℕ)
    (rk : ℕ → ℕ) (d : ℕ → ℚ) (hwf : ∀ a b, parent a = some b → rk b < rk a)
    (c : ℕ → ℚ) (lo hi : ℕ) (hp : parent hi = some lo)
    (hlo : c lo = fixDepth ms len parent rk d lo)
    (hhi : c hi = d hi ∨ c hi = fixDepth ms len parent rk d hi) :
    stepPair ms len c lo hi hi = fixDepth ms len parent rk d hi := by
  rcases hhi with hhi | hhi
  · have hF := fixDepth_some ms len parent rk d hwf hi lo hp
    by_cases h0 : fixDepth ms len parent rk d lo - d hi / len lo hi > ms
    · unfold stepPair
      rw [if_pos (by rw [hlo, hhi]; exact h0), Function.update_same, hlo, hF,
        if_pos h0]
    · unfold stepPair
      rw [if_neg (by rw [hlo, hhi]; exact h0), hhi, hF, if_neg h0]
  · rw [stepPair_fix ms len parent rk d hwf c lo hi hp hlo hhi, hhi]

theorem walkRev_establish (ms : ℚ) (len : ℕ → ℕ → ℚ) (parent : ℕ → Option ℕ)
    (rk : ℕ → ℕ) (d : ℕ → ℚ) (hwf : ∀ a b, parent a = some b → rk b < rk a) :
    ∀ (rp : List ℕ) (x : ℕ) (c : ℕ → ℚ),
      List.Chain' (fun a b => parent b = some a) (x :: rp) →
      (∀ z, c z = d z ∨ c z = fixDepth ms len parent rk d z) →
      c x = fixDepth ms len parent rk d x →
      (∀ z, walkRev ms len c (x :: rp) z = d z ∨
        walkRev ms len c (x :: rp) z = fixDepth ms len parent rk d z) ∧
      (∀ z, c z = fixDepth ms len parent rk d z →
        walkRev ms len c (x :: rp) z = fixDepth ms len parent rk d z) ∧
      (∀ z ∈ x :: rp, walkRev ms len c (x :: rp) z = fixDepth ms len parent rk d z) := by
  intro rp
  induction rp with
  | nil =>
    intro x c _ hinv hx
    refine ⟨hinv, fun z hz => hz, ?_⟩
    intro z hz
    rcases List.mem_singleton.mp hz with rfl
    exact hx
  | cons y rest ih =>
    intro x c hch hinv hx
    have hp : parent y = some x := (List.chain'_cons.mp hch).1
    have hch' : List.Chain' (fun a b => parent b = some a) (y :: rest) :=
      (List.chain'_cons.mp hch).2
    have hxy : x ≠ y := by
      intro hxy
      subst hxy
      exact absurd (hwf x x hp) (lt_irrefl _)
    have hy : stepPair ms len c x y y = fixDepth ms len parent rk d y :=
      stepPair_establish ms len parent rk d hwf c x y hp hx (hinv y)
    have hinv2 : ∀ z, stepPair ms len c x y z = d z ∨
        stepPair ms len c x y z = fixDepth ms len parent rk d z := by
      intro z
      by_cases hz : z = y
      · subst hz; exact Or.inr hy
      · rw [stepPair_apply_ne ms len c x y z hz]; exact hinv z
    have hpres2 : ∀ z, c z = fixDepth ms len parent rk d z →
        stepPair ms len c x y z = fixDepth ms len parent rk d z := by
      intro z hz
      by_cases hzy : z = y
      · subst hzy; exact hy
      · rw [stepPair_apply_ne ms len c x y z hzy]; exact hz
    obtain ⟨I1, I2, I3⟩ := ih y (stepPair ms len c x y) hch' hinv2 hy
    have hw : walkRev ms len c (x :: y :: rest) =
        walkRev ms len (stepPair ms len c x y) (y :: rest) := rfl
    rw [hw]
    refine ⟨I1, fun z hz => I2 z (hpres2 z hz), ?_⟩
    intro z hz
    rcases List.mem_cons.mp hz with hzx | hz
    · rw [hzx]
      exact I2 x (by rw [stepPair_apply_ne ms len c x y x hxy]; exact hx)
    · exact I3 z hz

theorem uphold_establish (ms : ℚ) (len : ℕ → ℕ → ℚ) (parent : ℕ → Option ℕ)
    (rk : ℕ → ℕ) (d : ℕ → ℚ) (hwf : ∀ a b, parent a = some b → rk b < rk a) :
    ∀ (paths : List (List ℕ)) (c : ℕ → ℚ),
      (∀ p ∈ paths, chainToRoot parent p.reverse) →
      (∀ z, c z = d z ∨ c z = fixDepth ms len parent rk d z) →
      (∀ z, uphold_max_slope ms len paths c z = d z ∨
        uphold_max_slope ms len paths c z = fixDepth ms len parent rk d z) ∧
      (∀ z, c z = fixDepth ms len parent rk d z →
        uphold_max_slope ms len paths c z = fixDepth ms len parent rk d z) ∧
      (∀ p ∈ paths, ∀ z ∈ p,
        uphold_max_slope ms len paths c z = fixDepth ms len parent rk d z) := by
  intro paths
  induction paths with
  | nil => exact fun c _ hinv => ⟨hinv, fun z hz => hz, fun p hp => absurd hp (by simp)⟩
  | cons p rest ih =>
    intro c hpaths hinv
    have hcr : chainToRoot parent p.reverse := hpaths p (List.mem_cons_self p rest)
    obtain ⟨x, rp, hrev⟩ : ∃ x rp, p.reverse = x :: rp := by
      cases hpv : p.reverse with
      | nil => rw [hpv] at hcr; exact absurd hcr (by simp [chainToRoot])
      | cons x rp => exact ⟨x, rp, rfl⟩
    rw [hrev] at hcr
    obtain ⟨hx0, hch⟩ := hcr
    have hcx : c x = fixDepth ms len parent rk d x := by
      rcases hinv x with hx | hx
      · rw [hx, fixDepth_none ms len parent rk d x hx0]
      · exact hx
    obtain ⟨W1, W2, W3⟩ := walkRev_establish ms len parent rk d hwf rp x c hch hinv hcx
    have hu : uphold_max_slope ms len (p :: rest) c =
        uphold_max_slope ms len rest (walkRev ms len c p.reverse) := rfl
    rw [hrev] at hu
    obtain ⟨I1, I2, I3⟩ := ih (walkRev ms len c (x :: rp))
      (fun q hq => hpaths q (List.mem_cons_of_mem p hq)) W1
    rw [hu]
    refine ⟨I1, fun z hz => I2 z (W2 z hz), ?_⟩
    intro q hq z hz
    rcases List.mem_cons.mp hq with rfl | hq
    · exact I2 z (W3 z (by rw [← hrev]; exact List.mem_reverse.mpr hz))
    · exact I3 q hq z hz

theorem walkRev_noop (ms : ℚ) (len : ℕ → ℕ → ℚ) (parent : ℕ → Option ℕ)
    (rk : ℕ → ℕ) (d : ℕ → ℚ) (hwf : ∀ a b, parent a = some b → rk b < rk a) :
    ∀ (rp : List ℕ) (c : ℕ → ℚ),
      List.Chain' (fun a b => parent b = some a) rp →
      (∀ z ∈ rp, c z = fixDepth ms len parent rk d z) →
      walkRev ms len c rp = c := by
  intro rp
  induction rp with
  | nil => intro c _ _; rfl
  | cons x rest ih =>
    intro c hch hfix
    cases rest with
    | nil => rfl
    | cons y rest' =>
      have hp : parent y = some x := (List.chain'_cons.mp hch).1
      have hst : stepPair ms len c x y = c :=
        stepPair_fix ms len parent rk d hwf c x y hp
          (hfix x (by simp)) (hfix y (by simp))
      have hw : walkRev ms len c (x :: y :: rest') =
          walkRev ms len (stepPair ms len c x y) (y :: rest') := rfl
      rw [hw, hst]
      exact ih c (List.chain'_cons.mp hch).2 (fun z hz => hfix z (List.mem_cons_of_mem x hz))

theorem uphold_noop (ms : ℚ) (len : ℕ → ℕ → ℚ) (parent : ℕ → Option ℕ)
    (rk : ℕ → ℕ) (d : ℕ → ℚ) (hwf : ∀ a b, parent a = some b → rk b < rk a) :
    ∀ (paths : List (List ℕ)) (c : ℕ → ℚ),
      (∀ p ∈ paths, chainToRoot parent p.reverse) →
      (∀ p ∈ paths, ∀ z ∈ p, c z = fixDepth ms len parent rk d z) →
      uphold_max_slope ms len paths c = c := by
  intro paths
  induction paths with
  | nil => intro c _ _; rfl
  | cons p rest ih =>
    intro c hpaths hfix
    have hcr : chainToRoot parent p.reverse := hpaths p (List.mem_cons_self p rest)
    have hch : List.Chain' (fun a b => parent b = some a) p.reverse := by
      cases hpv : p.reverse with
      | nil => exact List.chain'_nil
      | cons x rp => rw [hpv] at hcr; exact hcr.2
    have hw : walkRev ms len c p.reverse = c :=
      walkRev_noop ms len parent rk d hwf p.reverse c hch
        (fun z hz => hfix p (List.mem_cons_self p rest) z (List.mem_reverse.mp hz))
    have hu : uphold_max_slope ms len (p :: rest) c =
        uphold_max_slope ms len rest (walkRev ms len c p.reverse) := rfl
    rw [hu, hw]
    exact ih c (fun q hq => hpaths q (List.mem_cons_of_mem p hq))
      (fun q hq z hz => hfix q (List.mem_cons_of_mem p hq) z hz)

/-- **C8 (amended).** Whenever the stored paths are mutually consistent —
they all follow a single downstream map `parent` (well-founded via a rank
`rk`) and each runs out at an outfall (a `parent`-root) — `uphold_max_slope`
is idempotent: the second run reproduces the first run's depths exactly,
for any starting depths.  This covers every state the solver produces when
shortest paths to the outfalls are unique, and holds despite the
operator-precedence slip in the pass's guard. -/
theorem uphold_max_slope_idempotent (ms : ℚ) (len : ℕ → ℕ → ℚ)
    (parent : ℕ → Option ℕ) (rk : ℕ → ℕ)
    (hwf : ∀ a b, parent a = some b → rk b < rk a)
    (paths : List (List ℕ)) (hpaths : ∀ p ∈ paths, chainToRoot parent p.reverse)
    (d : ℕ → ℚ) :
    uphold_max_slope ms len paths (uphold_max_slope ms len paths d) =
      uphold_max_slope ms len paths d := by
  obtain ⟨_, _, h3⟩ := uphold_establish ms len parent rk d hwf paths d hpaths
    (fun z => Or.inl rfl)
  exact uphold_noop ms len parent rk d hwf paths _ hpaths h3

theorem uphold_max_slope_idempotent_witness :
    uphold_max_slope 1 (fun _ _ => 1) [[2, 1, 0], [1, 0], [0]]
        (uphold_max_slope 1 (fun _ _ => 1) [[2, 1, 0], [1, 0], [0]] (fun _ => (1 : ℚ)))
      = uphold_max_slope 1 (fun _ _ => 1) [[2, 1, 0], [1, 0], [0]] (fun _ => (1 : ℚ)) :=
  uphold_max_slope_idempotent 1 (fun _ _ => 1)
    (fun n => if n = 0 then none else some (n - 1)) (fun n => n)
    (by
      intro a b h
      dsimp only at h ⊢
      by_cases ha : a = 0
      · rw [if_pos ha] at h
        exact absurd h (by simp)
      · rw [if_neg ha] at h
        simp only [Option.some.injEq] at h
        omega)
    [[2, 1, 0], [1, 0], [0]]
    (by
      intro p hp
      fin_cases hp
      · exact ⟨by decide, by simp [List.chain'_cons]⟩
      · exact ⟨by decide, by simp [List.chain'_cons]⟩
      · exact ⟨by decide, by simp [List.chain'_cons]⟩)
    (fun _ => 1)

/-- The symmetric conduit-length table of the six-node tie network used in
the C8 counterexample: outfall `0`; conduits `0–1` (10 m), `0–2` (2 m),
`1–3` (2 m), `2–3` (10 m), `3–4` (50 m), `3–5` (50 m).  Both routes from
junction `3` to the outfall measure 12 m, an exact tie. -/
def lenTie : ℕ → ℕ → ℚ := fun a b =>
  if min a b = 0 ∧ max a b = 1 then 10
  else if min a b = 0 ∧ max a b = 2 then 2
  else if min a b = 1 ∧ max a b = 3 then 2
  else if min a b = 2 ∧ max a b = 3 then 10
  else 50

/-- The stored paths of that network when Dijkstra breaks the tie one way
for leaf `4` (routed `4-3-1-0` first) and the other way for leaf `5`
(routed `5-3-2-0`): node `3` keeps the first-written suffix `[3,1,0]` while
node `5` stores a path that continues through `2`. -/
def tiePaths : List (List ℕ) := [[0], [1, 0], [2, 0], [3, 1, 0], [4, 3, 1, 0], [5, 3, 2, 0]]

/-- The depths the min-slope pass (`set_depth`, `min_slope = 1/100`,
`min_depth = 11/10`) produces on that network, processing leaf `4`'s route
and then leaf `5`'s route, exactly as `flow_and_height` does. -/
def tieDepths : ℕ → ℚ :=
  set_depth (1/100) lenTie
    (set_depth (1/100) lenTie (fun _ => 11/10) [4, 3, 1, 0]) [5, 3, 2, 0]

/-- **C8 (counterexample).** On a solver state whose stored paths were
tie-broken inconsistently (allowed: the spec declares shortest-path ties
"broken arbitrarily"), `uphold_max_slope` is *not* idempotent: with
`max_slope = 1/10`, the second run lowers node `4`'s depth again
(`-17/5` after one run, `-112/25` after two), because node `3`'s depth is
rewritten through two different downstream neighbours (`1` in paths 4 and
its own, `2` in path 5) and pair `(3,4)` reacts differently on the second
sweep. -/
theorem uphold_max_slope_not_idempotent_on_tied_paths :
    uphold_max_slope (1/10) lenTie tiePaths
        (uphold_max_slope (1/10) lenTie tiePaths tieDepths) 4
      ≠ uphold_max_slope (1/10) lenTie tiePaths tieDepths 4 := by
  norm_num [uphold_max_slope, tiePaths, tieDepths, walkRev, stepPair, set_depth,
    lenTie, Function.update]

/-! ## `set_paths` (claim C7) -/

/-- Python truthiness of a stored `path` cell: `if not nodes.loc[node, "path"]`
is taken when the cell is `None` (the initial value) or an empty list. -/
def falsyPath (o : Option (List ℕ)) : Bool :=
  match o with
  | none => true
  | some [] => true
  | some (_ :: _) => false

/-- `set_paths` (`attribute_calculator.py` lines 152–168): enumerate the
routed `path`; every node whose `path` cell is still falsy receives the
suffix of `path` starting at its own position (`path[i:]`), already-set
nodes are skipped.  The recursion carries the running suffix, which is
exactly `path[i:]` at step `i`. -/
def set_paths (stored : ℕ → Option (List ℕ)) : List ℕ → (ℕ → Option (List ℕ))
  | [] => stored
  | n :: rest =>
      set_paths
        (if falsyPath (stored n) then Function.update stored n (some (n :: rest))
         else stored) rest

/-- The suffix of `p` starting at the first occurrence of `n`. -/
def sufFrom (n : ℕ) : List ℕ → List ℕ
  | [] => []
  | m :: rest => if m = n then m :: rest else sufFrom n rest

theorem sufFrom_cons (n m : ℕ) (rest : List ℕ) :
    sufFrom n (m :: rest) = if m = n then m :: rest else sufFrom n rest := rfl

theorem set_paths_keeps :
    ∀ (p : List ℕ) (stored : ℕ → Option (List ℕ)) (n : ℕ) (q : List ℕ),
      stored n = some q → q ≠ [] → set_paths stored p n = some q := by
  intro p
  induction p with
  | nil => exact fun stored n q hq _ => hq
  | cons m rest ih =>
    intro stored n q hq hne
    show set_paths _ rest n = some q
    by_cases hmn : m = n
    · subst hmn
      have hf : falsyPath (stored m) = false := by
        rw [hq]
        cases q with
        | nil => exact absurd rfl hne
        | cons a t => rfl
      rw [hf]
      exact ih stored m q hq hne
    · by_cases hfm : falsyPath (stored m) = true
      · rw [if_pos hfm]
        exact ih _ n q (by rw [Function.update_noteq (Ne.symm hmn)]; exact hq) hne
      · rw [if_neg hfm]
        exact ih stored n q hq hne

theorem set_paths_writes :
    ∀ (p : List ℕ) (stored : ℕ → Option (List ℕ)) (n : ℕ),
      falsyPath (stored n) = true → n ∈ p →
      set_paths stored p n = some (sufFrom n p) := by
  intro p
  induction p with
  | nil => exact fun stored n _ hn => absurd hn (List.not_mem_nil n)
  | cons m rest ih =>
    intro stored n hf hn
    show set_paths _ rest n = some (sufFrom n (m :: rest))
    by_cases hmn : m = n
    · subst hmn
      rw [if_pos hf]
      rw [sufFrom_cons, if_pos rfl]
      exact set_paths_keeps rest _ m (m :: rest)
        (by rw [Function.update_same]) (by simp)
    · have hn' : n ∈ rest := by
        rcases List.mem_cons.mp hn with h | h
        · exact absurd h.symm hmn
        · exact h
      rw [sufFrom_cons, if_neg hmn]
      by_cases hfm : falsyPath (stored m) = true
      · rw [if_pos hfm]
        exact ih _ n (by rw [Function.update_noteq (Ne.symm hmn)]; exact hf) hn'
      · rw [if_neg hfm]
        exact ih stored n hf hn'

theorem sufFrom_getLast :
    ∀ (p : List ℕ) (n : ℕ), n ∈ p → (sufFrom n p).getLast? = p.getLast? := by
  intro p
  induction p with
  | nil => exact fun n hn => absurd hn (List.not_mem_nil n)
  | cons m rest ih =>
    intro n hn
    by_cases hmn : m = n
    · rw [sufFrom_cons, if_pos hmn]
    · have hn' : n ∈ rest := by
        rcases List.mem_cons.mp hn with h | h
        · exact absurd h.symm hmn
        · exact h
      rw [sufFrom_cons, if_neg hmn, ih n hn']
      cases rest with
      | nil => exact absurd hn' (List.not_mem_nil n)
      | cons a t => rw [List.getLast?_cons_cons]

/-- **C7 (amended).** What `set_paths` really guarantees: (1) first-write-wins
— a node whose stored path is a nonempty list is never overwritten; (2) a
node with a falsy cell that lies on the routed path receives exactly the
suffix of the path starting at its first occurrence; (3) consequently every
newly written path ends at the same node the routed path ends at (the
outfall).  The cross-node strict-suffix consequence claimed by C7 is *not*
guaranteed (see the counterexample): it additionally requires routed paths
to agree beyond shared nodes, which can fail when shortest-path ties are
broken inconsistently. -/
theorem set_paths_amended_spec (stored : ℕ → Option (List ℕ)) (p : List ℕ) :
    (∀ n q, stored n = some q → q ≠ [] → set_paths stored p n = some q) ∧
    (∀ n, falsyPath (stored n) = true → n ∈ p →
      set_paths stored p n = some (sufFrom n p)) ∧
    (∀ n o, falsyPath (stored n) = true → n ∈ p → p.getLast? = some o →
      ∃ q, set_paths stored p n = some q ∧ q.getLast? = some o) := by
  refine ⟨fun n q hq hne => set_paths_keeps p stored n q hq hne,
    fun n hf hn => set_paths_writes p stored n hf hn, ?_⟩
  intro n o hf hn ho
  exact ⟨sufFrom n p, set_paths_writes p stored n hf hn,
    by rw [sufFrom_getLast p n hn, ho]⟩

theorem set_paths_amended_spec_witness :
    set_paths (fun _ => none) [4, 3, 1, 0] 3 = some (sufFrom 3 [4, 3, 1, 0]) :=
  (set_paths_amended_spec (fun _ => none) [4, 3, 1, 0]).2.1 3 rfl (by decide)

/-- **C7 (counterexample).** On the exact-tie network of `lenTie`
(`4-3-1-0` and `5-3-2-0` are both shortest routes to outfall `0`), routing
leaf `4` first and leaf `5` second — a tie-breaking the spec explicitly
permits — leaves node `5` with stored path `[5,3,2,0]` while its successor
node `3` keeps the first-written `[3,1,0]`, which is *not* a suffix of
`[5,3,2,0]`: the claimed "each successive node's path is a strict suffix of
its predecessor's" fails. -/
theorem stored_paths_not_suffix_consistent :
    set_paths (set_paths (fun _ => none) [4, 3, 1, 0]) [5, 3, 2, 0] 5
        = some [5, 3, 2, 0]
      ∧ set_paths (set_paths (fun _ => none) [4, 3, 1, 0]) [5, 3, 2, 0] 3
        = some [3, 1, 0]
      ∧ List.isSuffixOf [3, 1, 0] [5, 3, 2, 0] = false := by
  refine ⟨?_, ?_, by decide⟩ <;> decide

/-! ## `determine_path` (claim C3)

`networkx.single_source_dijkstra(graph, start, target=e)` is third-party
code; it is modelled by its documented contract as an oracle
`sssp : ℕ → Except Unit (ℚ × List ℕ)` mapping a target to either
`.ok (length, path)` (a shortest path from the fixed start) or `.error ()`
(the `NetworkXNoPath` exception raised when the target is unreachable).
The exception propagates out of `determine_path` uncaught, which the
`Except` monad's short-circuiting reproduces. -/

/-- The `for end_point in ends` loop of `determine_path`
(`attribute_calculator.py` lines 139–149): `shortest` is
`shortest_length` (`none` models the initial `np.inf`), `best` is
`best_path` (initially `[]`); each target's result replaces the running
best exactly when its length is strictly smaller. -/
def dpAux (sssp : ℕ → Except Unit (ℚ × List ℕ)) :
    List ℕ → Option ℚ → List ℕ → Except Unit (List ℕ)
  | [], _, best => .ok best
  | e :: rest, shortest, best =>
    match sssp e with
    | .error u => .error u
    | .ok (length, path) =>
      match shortest with
      | none => dpAux sssp rest (some length) path
      | some s =>
        if length < s then dpAux sssp rest (some length) path
        else dpAux sssp rest shortest best

/-- `determine_path` (`attribute_calculator.py` lines 127–149). -/
def determine_path (sssp : ℕ → Except Unit (ℚ × List ℕ)) (ends : List ℕ) :
    Except Unit (List ℕ) :=
  dpAux sssp ends none []

theorem dpAux_cons (sssp : ℕ → Except Unit (ℚ × List ℕ)) (e : ℕ) (rest : List ℕ)
    (shortest : Option ℚ) (best : List ℕ) :
    dpAux sssp (e :: rest) shortest best =
      match sssp e with
      | .error u => .error u
      | .ok (length, path) =>
        match shortest with
        | none => dpAux sssp rest (some length) path
        | some s =>
          if length < s then dpAux sssp rest (some length) path
          else dpAux sssp rest shortest best := rfl

theorem dpAux_error (sssp : ℕ → Except Unit (ℚ × List ℕ)) :
    ∀ (ends : List ℕ) (shortest : Option ℚ) (best : List ℕ),
      (∃ e ∈ ends, sssp e = .error ()) → dpAux sssp ends shortest best = .error () := by
  intro ends
  induction ends with
  | nil => exact fun shortest best h => absurd h (by simp)
  | cons e rest ih =>
    intro shortest best ⟨e2, he2, herr⟩
    rw [dpAux_cons]
    cases hse : sssp e with
    | error u => cases u; rfl
    | ok r =>
      obtain ⟨L, P⟩ := r
      have he2' : e2 ∈ rest := by
        rcases List.mem_cons.mp he2 with h | h
        · rw [h] at herr
          rw [herr] at hse
          exact absurd hse (by simp)
        · exact h
      dsimp only
      cases shortest with
      | none => exact ih _ _ ⟨e2, he2', herr⟩
      | some s =>
        dsimp only
        by_cases hls : L < s
        · rw [if_pos hls]
          exact ih _ _ ⟨e2, he2', herr⟩
        · rw [if_neg hls]
          exact ih _ _ ⟨e2, he2', herr⟩

theorem dpAux_ok (sssp : ℕ → Except Unit (ℚ × List ℕ)) :
    ∀ (ends : List ℕ) (s : ℚ) (best : List ℕ),
      (∀ e ∈ ends, ∃ r, sssp e = .ok r) →
      ∃ L P, dpAux sssp ends (some s) best = .ok P
        ∧ ((L = s ∧ P = best) ∨ (∃ e ∈ ends, sssp e = .ok (L, P)))
        ∧ L ≤ s
        ∧ (∀ e2 ∈ ends, ∀ L2 P2, sssp e2 = .ok (L2, P2) → L ≤ L2) := by
  intro ends
  induction ends with
  | nil =>
    intro s best _
    exact ⟨s, best, rfl, Or.inl ⟨rfl, rfl⟩, le_refl s, by simp⟩
  | cons e rest ih =>
    intro s best hok
    obtain ⟨⟨L1, P1⟩, hse⟩ := hok e (List.mem_cons_self e rest)
    have hokr : ∀ e2 ∈ rest, ∃ r, sssp e2 = .ok r :=
      fun e2 he2 => hok e2 (List.mem_cons_of_mem e he2)
    rw [dpAux_cons, hse]
    dsimp only
    by_cases hls : L1 < s
    · rw [if_pos hls]
      obtain ⟨L, P, h1, h2, h3, h4⟩ := ih L1 P1 hokr
      refine ⟨L, P, h1, ?_, le_trans h3 (le_of_lt hls), ?_⟩
      · rcases h2 with ⟨hL, hP⟩ | ⟨e2, he2, h⟩
        · exact Or.inr ⟨e, List.mem_cons_self e rest, by rw [hL, hP]; exact hse⟩
        · exact Or.inr ⟨e2, List.mem_cons_of_mem e he2, h⟩
      · intro e2 he2 L2 P2 hs2
        rcases List.mem_cons.mp he2 with h | h
        · rw [h] at hs2
          rw [hs2] at hse
          have : L2 = L1 := by
            have := (Except.ok.inj hse)
            exact (Prod.mk.injEq _ _ _ _ ▸ this).1
          rw [this]
          exact h3
        · exact h4 e2 h L2 P2 hs2
    · rw [if_neg hls]
      obtain ⟨L, P, h1, h2, h3, h4⟩ := ih s best hokr
      refine ⟨L, P, h1, ?_, h3, ?_⟩
      · rcases h2 with h | ⟨e2, he2, h⟩
        · exact Or.inl h
        · exact Or.inr ⟨e2, List.mem_cons_of_mem e he2, h⟩
      · intro e2 he2 L2 P2 hs2
        rcases List.mem_cons.mp he2 with h | h
        · rw [h] at hs2
          rw [hs2] at hse
          have hL2 : L2 = L1 := by
            have := (Except.ok.inj hse)
            exact (Prod.mk.injEq _ _ _ _ ▸ this).1
          rw [hL2]
          exact le_trans h3 (not_lt.mp hls)
        · exact h4 e2 h L2 P2 hs2

/-- **C3 (amended).** `determine_path` fails as soon as *any* member of
`ends` is unreachable (the `NetworkXNoPath` exception from
`single_source_dijkstra` propagates before the remaining targets are
tried), not only when all of them are; and when every target is reachable
it returns a path to a target of minimal shortest-path length. -/
theorem determine_path_amended_spec (sssp : ℕ → Except Unit (ℚ × List ℕ))
    (ends : List ℕ) (hne : ends ≠ []) :
    ((∃ e ∈ ends, sssp e = .error ()) → determine_path sssp ends = .error ())
    ∧ ((∀ e ∈ ends, ∃ r, sssp e = .ok r) →
        ∃ e ∈ ends, ∃ L P, sssp e = .ok (L, P)
          ∧ determine_path sssp ends = .ok P
          ∧ ∀ e2 ∈ ends, ∀ L2 P2, sssp e2 = .ok (L2, P2) → L ≤ L2) := by
  constructor
  · exact fun h => dpAux_error sssp ends none [] h
  · intro hok
    cases ends with
    | nil => exact absurd rfl hne
    | cons e rest =>
      obtain ⟨⟨L1, P1⟩, hse⟩ := hok e (List.mem_cons_self e rest)
      have hstep : determine_path sssp (e :: rest) = dpAux sssp rest (some L1) P1 := by
        unfold determine_path
        rw [dpAux_cons, hse]
      obtain ⟨L, P, h1, h2, h3, h4⟩ := dpAux_ok sssp rest L1 P1
        (fun e2 he2 => hok e2 (List.mem_cons_of_mem e he2))
      rcases h2 with ⟨hL, hP⟩ | ⟨e2, he2, h⟩
      · refine ⟨e, List.mem_cons_self e rest, L, P, by rw [hL, hP]; exact hse,
          by rw [hstep]; exact h1, ?_⟩
        intro e2 he2 L2 P2 hs2
        rcases List.mem_cons.mp he2 with h | h
        · rw [h] at hs2
          rw [hs2] at hse
          have hL2 : L2 = L1 := by
            have := (Except.ok.inj hse)
            exact (Prod.mk.injEq _ _ _ _ ▸ this).1
          rw [hL2]
          exact h3
        · exact h4 e2 h L2 P2 hs2
      · refine ⟨e2, List.mem_cons_of_mem e he2, L, P, h,
          by rw [hstep]; exact h1, ?_⟩
        intro e3 he3 L2 P2 hs2
        rcases List.mem_cons.mp he3 with h' | h'
        · rw [h'] at hs2
          rw [hs2] at hse
          have hL2 : L2 = L1 := by
            have := (Except.ok.inj hse)
            exact (Prod.mk.injEq _ _ _ _ ▸ this).1
          rw [hL2]
          exact h3
        · exact h4 e3 h' L2 P2 hs2

/-- The Dijkstra oracle of the two-component graph with nodes `{0, 1, 2}`,
a single conduit `0–1` of length 1, and start node `0`: target `1` is
reachable with shortest path `[0, 1]` of length 1, every other target is
unreachable (`NetworkXNoPath`). -/
def ssspDisc : ℕ → Except Unit (ℚ × List ℕ) := fun t =>
  if t = 1 then .ok ((1 : ℚ), [0, 1]) else .error ()

/-- **C3 (counterexample).** With targets `[2, 1]` — node `2` unreachable,
node `1` reachable — the claim says `determine_path` must succeed (some
target is reachable); the code raises at target `2` before ever trying
target `1`, as the second conjunct shows succeeding for `[1]` alone. -/
theorem determine_path_raises_despite_reachable_target :
    determine_path ssspDisc [2, 1] = .error ()
      ∧ determine_path ssspDisc [1] = .ok [0, 1] := by
  exact ⟨rfl, rfl⟩

/-- The Dijkstra oracle of a graph where both targets are reachable from
the start: target `1` at distance 1 via `[0, 1]`, every other node at
distance 2 via `[0, 2]`. -/
def ssspTwo : ℕ → Except Unit (ℚ × List ℕ) := fun t =>
  if t = 1 then .ok ((1 : ℚ), [0, 1]) else .ok ((2 : ℚ), [0, 2])

theorem determine_path_amended_spec_witness :
    ∃ e ∈ [2, 1], ∃ L P, ssspTwo e = .ok (L, P)
      ∧ determine_path ssspTwo [2, 1] = .ok P
      ∧ ∀ e2 ∈ [2, 1], ∀ L2 P2, ssspTwo e2 = .ok (L2, P2) → L ≤ L2 :=
  (determine_path_amended_spec ssspTwo [2, 1] (by simp)).2
    (by
      intro e he
      by_cases h1 : e = 1
      · exact ⟨((1 : ℚ), [0, 1]), by simp [ssspTwo, h1]⟩
      · exact ⟨((2 : ℚ), [0, 2]), by simp [ssspTwo, h1]⟩)

/-! ## `diameter_calc` (claims C5, C6)

The per-conduit body of `diameter_calc` (`attribute_calculator.py` lines
308–323).  The local `precise_diam = 2 * sqrt(flow / pi)` is irrational in
exact arithmetic, so the embedding takes it as a separate argument `pd`
alongside `flow`; the map `flow ↦ 2·√(flow/π)` is a strictly increasing
bijection of `[0, ∞)` with `pd = 0 ↔ flow = 0`, and those two facts are the
only properties of it the selector logic uses — they appear as hypotheses
of the theorems below.  `flow` itself only feeds the `flow == 0` test. -/

/-- One row of `diameter_calc`: `if flow == 0` take `diam_list[0]`; else if
`precise_diam > diam_list[-1]` take `diam_list[-1]`; else scan for the first
entry with `size - precise_diam > 0` (strictly greater), leaving the cell
`None` when the scan finds nothing (which happens exactly when
`precise_diam` equals the catalog maximum). -/
def diameter_calc_entry (diam_list : List ℚ) (flow pd : ℚ) : Option ℚ :=
  if flow = 0 then diam_list.head?
  else if pd > diam_list.getLastD 0 then diam_list.getLast?
  else diam_list.find? (fun size => decide (size - pd > 0))

/-- `diameter_calc` over the whole edge table: each row holds the conduit's
`(flow, precise_diam)`; the function fills the `diameter` column. -/
def diameter_calc (diam_list : List ℚ) (rows : List (ℚ × ℚ)) : List (Option ℚ) :=
  rows.map (fun r => diameter_calc_entry diam_list r.1 r.2)

theorem head?_min (dl : List ℚ) (hsort : List.Sorted (· ≤ ·) dl) (a b : ℚ)
    (ha : dl.head? = some a) (hb : b ∈ dl) : a ≤ b := by
  cases dl with
  | nil => exact absurd hb (List.not_mem_nil b)
  | cons x t =>
    have hx : a = x := by
      simp only [List.head?_cons, Option.some.injEq] at ha
      exact ha.symm
    subst hx
    rcases List.mem_cons.mp hb with h | h
    · rw [h]
    · exact ((List.sorted_cons.mp hsort).1 b h)

theorem getLastD_max (dl : List ℚ) (hsort : List.Sorted (· ≤ ·) dl) :
    ∀ b ∈ dl, b ≤ dl.getLastD 0 := by
  induction dl with
  | nil => exact fun b hb => absurd hb (List.not_mem_nil b)
  | cons x t ih =>
    intro b hb
    cases t with
    | nil =>
      rcases List.mem_cons.mp hb with h | h
      · rw [h]; rfl
      · exact absurd h (List.not_mem_nil b)
    | cons y t' =>
      have hlast : (x :: y :: t').getLastD 0 = (y :: t').getLastD 0 := by
        rw [List.getLastD_eq_getLast?, List.getLastD_eq_getLast?,
          List.getLast?_cons_cons]
      rw [hlast]
      rcases List.mem_cons.mp hb with h | h
      · rw [h]
        have hy : y ∈ y :: t' := List.mem_cons_self y t'
        exact le_trans ((List.sorted_cons.mp hsort).1 y hy)
          (ih (List.sorted_cons.mp hsort).2 y hy)
      · exact ih (List.sorted_cons.mp hsort).2 b h

theorem find_gt_some (dl : List ℚ) (pd x : ℚ) (hsort : List.Sorted (· ≤ ·) dl)
    (hx : dl.find? (fun size => decide (size - pd > 0)) = some x) :
    x ∈ dl ∧ pd < x ∧ ∀ t ∈ dl, pd < t → x ≤ t := by
  induction dl with
  | nil => exact absurd hx (by simp)
  | cons a rest ih =>
    by_cases hpa : (a - pd > 0)
    · rw [List.find?_cons_of_pos _ (by simpa using hpa)] at hx
      have hxa : x = a := by
        simp only [Option.some.injEq] at hx
        exact hx.symm
      subst hxa
      refine ⟨List.mem_cons_self x rest, by linarith, ?_⟩
      intro t ht _
      rcases List.mem_cons.mp ht with h | h
      · rw [h]
      · exact (List.sorted_cons.mp hsort).1 t h
    · rw [List.find?_cons_of_neg _ (by simpa using hpa)] at hx
      obtain ⟨h1, h2, h3⟩ := ih (List.sorted_cons.mp hsort).2 hx
      refine ⟨List.mem_cons_of_mem a h1, h2, ?_⟩
      intro t ht hpt
      rcases List.mem_cons.mp ht with h | h
      · rw [h] at hpt
        exact absurd (by linarith : a - pd > 0) hpa
      · exact h3 t h hpt

/-- **C5 (amended).** What the selector really assigns, for a non-empty
ascending catalog: the smallest entry when `flow = 0`; the maximum when
`precise_diam` strictly exceeds it; otherwise the smallest entry *strictly
greater* than `precise_diam` when one exists — so a `precise_diam` exactly
equal to a catalog entry selects the next larger entry, not that entry —
and *no* value at all (`None` stays in the cell) when `precise_diam`
exactly equals the catalog maximum. -/
theorem diameter_calc_amended_spec (dl : List ℚ) (flow pd : ℚ)
    (hsort : List.Sorted (· ≤ ·) dl) :
    (flow = 0 → diameter_calc_entry dl flow pd = dl.head?)
    ∧ (flow ≠ 0 → pd > dl.getLastD 0 → diameter_calc_entry dl flow pd = dl.getLast?)
    ∧ (flow ≠ 0 → ¬ pd > dl.getLastD 0 → (∃ t ∈ dl, pd < t) →
        ∃ x, diameter_calc_entry dl flow pd = some x ∧ x ∈ dl ∧ pd < x
          ∧ ∀ t ∈ dl, pd < t → x ≤ t)
    ∧ (flow ≠ 0 → ¬ pd > dl.getLastD 0 → (∀ t ∈ dl, t ≤ pd) →
        diameter_calc_entry dl flow pd = none) := by
  refine ⟨fun h0 => by rw [diameter_calc_entry, if_pos h0], ?_, ?_, ?_⟩
  · intro h0 hbig
    rw [diameter_calc_entry, if_neg h0, if_pos hbig]
  · intro h0 hbig hex
    rw [diameter_calc_entry, if_neg h0, if_neg hbig]
    cases hf : dl.find? (fun size => decide (size - pd > 0)) with
    | none =>
      obtain ⟨t, ht, hpt⟩ := hex
      have := (List.find?_eq_none.mp hf) t ht
      simp only [decide_eq_true_eq] at this
      exact absurd (by linarith : t - pd > 0) this
    | some x =>
      obtain ⟨h1, h2, h3⟩ := find_gt_some dl pd x hsort hf
      exact ⟨x, rfl, h1, h2, h3⟩
  · intro h0 hbig hall
    rw [diameter_calc_entry, if_neg h0, if_neg hbig]
    refine List.find?_eq_none.mpr ?_
    intro t ht
    simp only [decide_eq_true_eq]
    have := hall t ht
    intro hc
    linarith

theorem diameter_calc_amended_spec_witness :
    diameter_calc_entry [(1 : ℚ), 4] 1 1 = some 4 := by
  obtain ⟨x, hx, hmem, hgt, hmin⟩ :=
    (diameter_calc_amended_spec [(1 : ℚ), 4] 1 1
        (by norm_num [List.sorted_cons])).2.2.1
      (by norm_num) (by norm_num [List.getLastD_eq_getLast?])
      ⟨4, by simp, by norm_num⟩
  have hmem2 : x = 1 ∨ x = 4 := by simpa using hmem
  rcases hmem2 with h | h
  · rw [h] at hgt
    exact absurd hgt (by norm_num)
  · rw [h] at hx
    exact hx

/-- **C5 (counterexample).** Catalog `[1, 4]`, a flow of exactly `π/4`
(nonzero; its `precise_diam = 2·√((π/4)/π) = 1` equals the first catalog
entry): the claim says the conduit gets the entry `1` (smallest entry
`≥ required_diameter`); the code's strict test `size - precise_diam > 0`
skips it and assigns `4`.  (The `flow` slot below carries an arbitrary
nonzero rational stand-in for `π/4`; the selector only tests it against
zero.) -/
theorem diameter_calc_exact_match_skipped :
    diameter_calc_entry [(1 : ℚ), 4] 1 1 = some 4
      ∧ diameter_calc_entry [(1 : ℚ), 4] 1 1 ≠ some 1 := by
  constructor
  · norm_num [diameter_calc_entry, List.getLastD_eq_getLast?, List.find?]
  · norm_num [diameter_calc_entry, List.getLastD_eq_getLast?, List.find?]

/-- **C6 (amended).** Diameter assignment is monotone in flow *among
conduits that receive a diameter at all*: for a fixed ascending catalog, if
both flows get an assigned entry, the larger flow's entry is at least the
smaller flow's.  (The qualifier is needed: a flow whose `precise_diam`
exactly equals the catalog maximum gets no diameter — see the
counterexample.)  The hypotheses about `pa`, `pb` state the two facts the
code's `2·√(flow/π)` guarantees: it vanishes exactly on zero flow and is
monotone. -/
theorem diameter_monotone_amended (dl : List ℚ) (fa fb pa pb da db : ℚ)
    (hsort : List.Sorted (· ≤ ·) dl)
    (hfa0 : fa = 0 ↔ pa = 0)
    (hfa : 0 ≤ fa) (hfab : fa < fb)
    (hpa : 0 ≤ pa) (hpab : pa ≤ pb)
    (hda : diameter_calc_entry dl fa pa = some da)
    (hdb : diameter_calc_entry dl fb pb = some db) :
    da ≤ db := by
  have hfb : fb ≠ 0 := by intro h; rw [h] at hfab; linarith
  have hdbmem : db ∈ dl := by
    rw [diameter_calc_entry] at hdb
    split at hdb
    · exact List.mem_of_mem_head? hdb
    · split at hdb
      · exact List.mem_of_getLast?_eq_some hdb
      · exact List.mem_of_find?_eq_some hdb
  by_cases ha0 : fa = 0
  · rw [diameter_calc_entry, if_pos ha0] at hda
    exact head?_min dl hsort da db hda hdbmem
  · have hpa0 : pa ≠ 0 := fun h => ha0 (hfa0.mpr h)
    rw [diameter_calc_entry, if_neg ha0] at hda
    rw [diameter_calc_entry, if_neg hfb] at hdb
    by_cases hbiga : pa > dl.getLastD 0
    · rw [if_pos hbiga] at hda
      have hbigb : pb > dl.getLastD 0 := lt_of_lt_of_le hbiga hpab
      rw [if_pos hbigb] at hdb
      rw [hda] at hdb
      exact le_of_eq (Option.some.inj hdb)
    · rw [if_neg hbiga] at hda
      obtain ⟨hdamem, hpada, hdamin⟩ := find_gt_some dl pa da hsort hda
      by_cases hbigb : pb > dl.getLastD 0
      · rw [if_pos hbigb] at hdb
        have : dl.getLastD 0 = db := by
          rw [List.getLastD_eq_getLast?, hdb]
          rfl
        rw [← this]
        exact getLastD_max dl hsort da hdamem
      · rw [if_neg hbigb] at hdb
        obtain ⟨_, hpbdb, _⟩ := find_gt_some dl pb db hsort hdb
        exact hdamin db hdbmem (lt_of_le_of_lt hpab hpbdb)

theorem diameter_monotone_amended_witness :
    diameter_calc_entry [(1 : ℚ), 4] 1 (1/2) = some 1
      ∧ diameter_calc_entry [(1 : ℚ), 4] 13 2 = some 4
      ∧ (1 : ℚ) ≤ 4 :=
  ⟨by norm_num [diameter_calc_entry, List.getLastD_eq_getLast?, List.find?],
   by norm_num [diameter_calc_entry, List.getLastD_eq_getLast?, List.find?],
   diameter_monotone_amended [(1 : ℚ), 4] 1 13 (1/2) 2 1 4
     (by norm_num [List.sorted_cons])
     (by norm_num) (by norm_num) (by norm_num) (by norm_num) (by norm_num)
     (by norm_num [diameter_calc_entry, List.getLastD_eq_getLast?, List.find?])
     (by norm_num [diameter_calc_entry, List.getLastD_eq_getLast?, List.find?])⟩

/-- **C6 (counterexample).** Catalog `[1, 4]`, `flow_a = 1 < flow_b = 13`
(stand-ins for `π` and `4π`, whose `precise_diam`s are exactly `2` and `4`):
the smaller flow is assigned diameter `4`, but the larger flow — whose
`precise_diam` equals the catalog maximum — is assigned *nothing* (the
strict scan finds no entry and the over-capacity branch requires strict
excess), so the assigned diameters are not monotone (`some 4` then
`none`). -/
theorem diameter_monotone_fails_at_catalog_max :
    diameter_calc_entry [(1 : ℚ), 4] 1 2 = some 4
      ∧ diameter_calc_entry [(1 : ℚ), 4] 13 4 = none := by
  constructor
  · norm_num [diameter_calc_entry, List.getLastD_eq_getLast?, List.find?]
  · norm_num [diameter_calc_entry, List.getLastD_eq_getLast?, List.find?]

/-! ## `flow_amount` / `inflow` and conservation (claim C4)

Edges are `(from, to)` pairs; a node row is `(area, path)`.  The
`edge_set.index(set([a, b]))` lookup of the source is `List.findIdx` over
the predicate "this edge's endpoint set is `{a, b}`", which is exactly the
symmetric disjunction `edgePred`. -/

/-- Matching an edge row against the unordered endpoint pair `{a, b}`. -/
def edgePred (a b : ℕ) : ℕ × ℕ → Bool := fun e =>
  decide ((e.1 = a ∧ e.2 = b) ∨ (e.1 = b ∧ e.2 = a))

/-- `edge_set.index(set([a, b]))`: the first edge row whose endpoint set is
`{a, b}`. -/
def edgeIdx (edges : List (ℕ × ℕ)) (a b : ℕ) : ℕ :=
  edges.findIdx (edgePred a b)

/-- `inflow` (`attribute_calculator.py` lines 278–290):
`area * (rainfall / 10**7) * (perc_inp / 100)`. -/
def inflow (area rainfall perc : ℚ) : ℚ :=
  area * (rainfall / 10 ^ 7) * (perc / 100)

/-- The consecutive pairs of a stored path (`path[j], path[j+1]`). -/
def pairsOf (p : List ℕ) : List (ℕ × ℕ) := p.zip p.tail

/-- `edges.at[edge_set.index(edge), "flow"] += node["inflow"]`: one
increment of the flow column. -/
def bumpFlow (edges : List (ℕ × ℕ)) (v : ℚ) (f : ℕ → ℚ) (ab : ℕ × ℕ) : ℕ → ℚ :=
  Function.update f (edgeIdx edges ab.1 ab.2) (f (edgeIdx edges ab.1 ab.2) + v)

/-- The inner loop of `flow_amount`: add the node's inflow `v` to every
conduit its path traverses. -/
def addPath (edges : List (ℕ × ℕ)) (f : ℕ → ℚ) (p : List ℕ) (v : ℚ) : ℕ → ℚ :=
  (pairsOf p).foldl (bumpFlow edges v) f

/-- `flow_amount` (`attribute_calculator.py` lines 244–275), restricted to
the flow column it produces: start from `edges["flow"] = 0`, then for every
node row in order walk its stored path and add that node's inflow to each
traversed conduit. -/
def flow_amount (edges : List (ℕ × ℕ)) (nodes : List (ℚ × List ℕ))
    (rain perc : ℚ) : ℕ → ℚ :=
  nodes.foldl (fun f nd => addPath edges f nd.2 (inflow nd.1 rain perc)) (fun _ => 0)

/-- Whether edge row `i` touches an outfall. -/
def incidentIdx (edges : List (ℕ × ℕ)) (outfalls : List ℕ) (i : ℕ) : Bool :=
  match edges[i]? with
  | some e => decide (e.1 ∈ outfalls ∨ e.2 ∈ outfalls)
  | none => false

/-- Total flow of the conduits incident to an outfall. -/
def outfallSum (edges : List (ℕ × ℕ)) (outfalls : List ℕ) (f : ℕ → ℚ) : ℚ :=
  ∑ i ∈ (Finset.range edges.length).filter
      (fun i => incidentIdx edges outfalls i = true), f i

/-- The sum of the whole `inflow` column. -/
def totalInflow (nodes : List (ℚ × List ℕ)) (rain perc : ℚ) : ℚ :=
  (nodes.map (fun nd => inflow nd.1 rain perc)).sum

theorem incidentIdx_edgeIdx (edges : List (ℕ × ℕ)) (outf : List ℕ) (a b : ℕ)
    (hex : ∃ e ∈ edges, edgePred a b e = true) :
    edgeIdx edges a b < edges.length ∧
      (incidentIdx edges outf (edgeIdx edges a b) = true ↔ (a ∈ outf ∨ b ∈ outf)) := by
  have hlt : edgeIdx edges a b < edges.length :=
    List.findIdx_lt_length_of_exists hex
  refine ⟨hlt, ?_⟩
  have hp : edgePred a b (edges.get ⟨edgeIdx edges a b, hlt⟩) = true :=
    @List.findIdx_getElem _ (edgePred a b) edges hlt
  have hget : edges[edgeIdx edges a b]? = some (edges.get ⟨edgeIdx edges a b, hlt⟩) :=
    List.getElem?_eq_getElem hlt
  unfold incidentIdx
  rw [hget]
  dsimp only
  simp only [edgePred, decide_eq_true_eq] at hp ⊢
  rcases hp with ⟨h1, h2⟩ | ⟨h1, h2⟩
  · rw [h1, h2]
  · rw [h1, h2]
    exact or_comm

theorem outfallSum_update (edges : List (ℕ × ℕ)) (outf : List ℕ) (f : ℕ → ℚ)
    (i : ℕ) (v : ℚ) (hi : i < edges.length) :
    outfallSum edges outf (Function.update f i (f i + v)) =
      outfallSum edges outf f + (if incidentIdx edges outf i = true then v else 0) := by
  unfold outfallSum
  by_cases hin : incidentIdx edges outf i = true
  · have hiS : i ∈ (Finset.range edges.length).filter
        (fun j => incidentIdx edges outf j = true) :=
      Finset.mem_filter.mpr ⟨Finset.mem_range.mpr hi, hin⟩
    rw [if_pos hin, Finset.sum_update_of_mem hiS, ← Finset.erase_eq,
      ← Finset.add_sum_erase _ f hiS]
    ring
  · have hiS : i ∉ (Finset.range edges.length).filter
        (fun j => incidentIdx edges outf j = true) := by
      intro hmem
      exact hin (Finset.mem_filter.mp hmem).2
    rw [if_neg hin, add_zero]
    apply Finset.sum_congr rfl
    intro j hj
    exact Function.update_noteq (fun hji => hiS (by rw [← hji]; exact hj)) _ _

theorem foldl_bumpFlow_sum (edges : List (ℕ × ℕ)) (outf : List ℕ) (v : ℚ) :
    ∀ (L : List (ℕ × ℕ)) (f : ℕ → ℚ),
      (∀ ab ∈ L, ∃ e ∈ edges, edgePred ab.1 ab.2 e = true) →
      outfallSum edges outf (L.foldl (bumpFlow edges v) f) =
        outfallSum edges outf f +
          v * ((L.filter (fun ab =>
            incidentIdx edges outf (edgeIdx edges ab.1 ab.2))).length : ℚ) := by
  intro L
  induction L with
  | nil =>
    intro f _
    simp [outfallSum]
  | cons ab L' ih =>
    intro f hval
    obtain ⟨hlt, _⟩ := incidentIdx_edgeIdx edges outf ab.1 ab.2
      (hval ab (List.mem_cons_self ab L'))
    rw [List.foldl_cons,
      ih (bumpFlow edges v f ab) (fun x hx => hval x (List.mem_cons_of_mem ab hx))]
    have hstep : outfallSum edges outf (bumpFlow edges v f ab) =
        outfallSum edges outf f +
          (if incidentIdx edges outf (edgeIdx edges ab.1 ab.2) = true then v else 0) :=
      outfallSum_update edges outf f _ v hlt
    rw [hstep, List.filter_cons]
    by_cases hinc : incidentIdx edges outf (edgeIdx edges ab.1 ab.2) = true
    · rw [if_pos hinc, if_pos hinc, List.length_cons]
      push_cast
      ring
    · rw [if_neg hinc, if_neg hinc]
      ring

theorem countIncident_pairs (edges : List (ℕ × ℕ)) (outf : List ℕ) :
    ∀ (p : List ℕ),
      (∀ ab ∈ pairsOf p, ∃ e ∈ edges, edgePred ab.1 ab.2 e = true) →
      (∀ ab ∈ pairsOf p, ab.1 ∉ outf) →
      (∀ z, p.getLast? = some z → z ∈ outf) →
      ((pairsOf p).filter (fun ab =>
        incidentIdx edges outf (edgeIdx edges ab.1 ab.2))).length
        = if 2 ≤ p.length then 1 else 0 := by
  intro p
  induction p with
  | nil => intro _ _ _; rfl
  | cons x t ih =>
    intro hval hup hlast
    cases t with
    | nil => rfl
    | cons y rest =>
      have hpairs : pairsOf (x :: y :: rest) = (x, y) :: pairsOf (y :: rest) := rfl
      rw [hpairs, List.filter_cons]
      cases rest with
      | nil =>
        have hy : y ∈ outf := hlast y rfl
        have hinc : incidentIdx edges outf (edgeIdx edges x y) = true :=
          (incidentIdx_edgeIdx edges outf x y
            (hval (x, y) (by rw [hpairs]; exact List.mem_cons_self _ _))).2.mpr
            (Or.inr hy)
        rw [if_pos hinc]
        rfl
      | cons r rest' =>
        have hxy : (x, y) ∈ pairsOf (x :: y :: r :: rest') :=
          List.mem_cons_self _ _
        have hyr : (y, r) ∈ pairsOf (x :: y :: r :: rest') :=
          List.mem_cons_of_mem _ (List.mem_cons_self _ _)
        have hxout : x ∉ outf := hup (x, y) hxy
        have hyout : y ∉ outf := hup (y, r) hyr
        have hinc : ¬ incidentIdx edges outf (edgeIdx edges x y) = true := by
          intro hc
          rcases (incidentIdx_edgeIdx edges outf x y (hval (x, y) hxy)).2.mp hc with
            h | h
          · exact hxout h
          · exact hyout h
        rw [if_neg hinc]
        have htail := ih
          (fun ab hab => hval ab (List.mem_cons_of_mem _ hab))
          (fun ab hab => hup ab (List.mem_cons_of_mem _ hab))
          (fun z hz => hlast z (by rw [List.getLast?_cons_cons]; exact hz))
        rw [htail]
        rw [if_pos (by simp only [List.length_cons]; omega),
          if_pos (by simp only [List.length_cons]; omega)]

theorem flow_amount_sum (edges : List (ℕ × ℕ)) (outf : List ℕ) (rain perc : ℚ) :
    ∀ (nodes : List (ℚ × List ℕ)) (f : ℕ → ℚ),
      (∀ nd ∈ nodes,
        (∀ ab ∈ pairsOf nd.2, ∃ e ∈ edges, edgePred ab.1 ab.2 e = true)
        ∧ (∀ ab ∈ pairsOf nd.2, ab.1 ∉ outf)
        ∧ (∀ z, nd.2.getLast? = some z → z ∈ outf)) →
      outfallSum edges outf
        (nodes.foldl (fun f nd => addPath edges f nd.2 (inflow nd.1 rain perc)) f)
        = outfallSum edges outf f +
          ((nodes.filter (fun nd => decide (2 ≤ nd.2.length))).map
            (fun nd => inflow nd.1 rain perc)).sum := by
  intro nodes
  induction nodes with
  | nil =>
    intro f _
    simp
  | cons nd rest ih =>
    intro f hyp
    obtain ⟨h1, h2, h3⟩ := hyp nd (List.mem_cons_self nd rest)
    rw [List.foldl_cons, ih _ (fun x hx => hyp x (List.mem_cons_of_mem nd hx))]
    have hstep : outfallSum edges outf (addPath edges f nd.2 (inflow nd.1 rain perc))
        = outfallSum edges outf f +
          inflow nd.1 rain perc * (if 2 ≤ nd.2.length then 1 else 0) := by
      unfold addPath
      rw [foldl_bumpFlow_sum edges outf _ (pairsOf nd.2) f h1,
        countIncident_pairs edges outf nd.2 h1 h2 h3]
      by_cases hlen : 2 ≤ nd.2.length
      · rw [if_pos hlen, if_pos hlen]
        norm_num
      · rw [if_neg hlen, if_neg hlen]
        norm_num
    rw [hstep, List.filter_cons]
    by_cases hlen : 2 ≤ nd.2.length
    · rw [if_pos hlen,
        if_pos (show decide (2 ≤ nd.2.length) = true from by simpa using hlen),
        List.map_cons, List.sum_cons]
      ring
    · rw [if_neg hlen,
        if_neg (show ¬ decide (2 ≤ nd.2.length) = true from by simpa using hlen)]
      ring

/-- **C4 (amended).** Conservation holds for the *non-outfall* inflow: for
any state whose stored paths traverse existing conduits, touch an outfall
only at their final node, and end at an outfall, the total flow of the
outfall-incident conduits equals the summed inflow of the nodes whose path
contains at least one conduit (equivalently, of all non-outfall nodes).
The outfall's own inflow is *not* routed anywhere — its stored path is the
singleton `[outfall]`, whose pair walk is empty — so the claimed equality
with the sum over *all* nodes fails (see the counterexample). -/
theorem flow_conservation_amended (edges : List (ℕ × ℕ)) (outfalls : List ℕ)
    (nodes : List (ℚ × List ℕ)) (rain perc : ℚ)
    (hyp : ∀ nd ∈ nodes,
      (∀ ab ∈ pairsOf nd.2, ∃ e ∈ edges, edgePred ab.1 ab.2 e = true)
      ∧ (∀ ab ∈ pairsOf nd.2, ab.1 ∉ outfalls)
      ∧ (∀ z, nd.2.getLast? = some z → z ∈ outfalls)) :
    outfallSum edges outfalls (flow_amount edges nodes rain perc)
      = ((nodes.filter (fun nd => decide (2 ≤ nd.2.length))).map
          (fun nd => inflow nd.1 rain perc)).sum := by
  unfold flow_amount
  rw [flow_amount_sum edges outfalls rain perc nodes (fun _ => 0) hyp]
  have hzero : outfallSum edges outfalls (fun _ => 0) = 0 := Finset.sum_const_zero
  rw [hzero, zero_add]

theorem flow_conservation_amended_witness :
    outfallSum [(0, 1)] [1]
        (flow_amount [(0, 1)] [(100, [0, 1]), (100, [1])] 70 25)
      = (([((100 : ℚ), [0, 1]), (100, [1])].filter
          (fun nd => decide (2 ≤ nd.2.length))).map
          (fun nd => inflow nd.1 70 25)).sum :=
  flow_conservation_amended [(0, 1)] [1] [(100, [0, 1]), (100, [1])] 70 25
    (by
      intro nd hnd
      rcases List.mem_cons.mp hnd with h | h
      · rw [h]
        refine ⟨?_, ?_, ?_⟩
        · intro ab hab
          have : ab = (0, 1) := by simpa [pairsOf] using hab
          exact ⟨(0, 1), by simp, by rw [this]; rfl⟩
        · intro ab hab
          have : ab = (0, 1) := by simpa [pairsOf] using hab
          rw [this]
          simp
        · intro z hz
          have h1 : (1 : ℕ) = z := by simpa using hz
          rw [← h1]
          simp
      · have h' : nd = (100, [1]) := by simpa using h
        rw [h']
        refine ⟨?_, ?_, ?_⟩
        · intro ab hab
          exact absurd hab (by simp [pairsOf])
        · intro ab hab
          exact absurd hab (by simp [pairsOf])
        · intro z hz
          have h1 : (1 : ℕ) = z := by simpa using hz
          rw [← h1]
          simp)

/-- **C4 (counterexample).** Two nodes, one conduit `0–1`, outfall `1`,
areas `100` each, rainfall `70`, imperviousness `25 %`: node `0` routes its
inflow `7/40000` through the single outfall-incident conduit, but the
outfall's own inflow (also `7/40000`, its path is the singleton `[1]`) is
routed nowhere, so the outfall-incident flow (`7/40000`) differs from the
sum of *all* node inflows (`7/20000`) asserted by the claim. -/
theorem flow_amount_outfall_inflow_not_conserved :
    outfallSum [(0, 1)] [1]
        (flow_amount [(0, 1)] [(100, [0, 1]), (100, [1])] 70 25)
      ≠ totalInflow [(100, [0, 1]), (100, [1])] 70 25 := by
  norm_num [outfallSum, flow_amount, addPath, bumpFlow, pairsOf, edgeIdx,
    edgePred, incidentIdx, totalInflow, inflow, Function.update,
    List.findIdx_cons, Finset.range_one, Finset.filter_singleton,
    Finset.sum_singleton]

/-! ## The `flow_and_height` while-loop (claim C9)

`flow_and_height` (`attribute_calculator.py` lines 72–83) runs
`while not nodes["considered"].all()`, each pass selecting the nodes whose
`connections` count equals the pass counter `i`, routing each unconsidered
one and marking its whole routed path considered.  An isolated node's
`connections` cell is `NaN` (it never appears in the
`value_counts` of the melted edge list), so `nodes.connections == i` is
false for every `i` and the node can only become considered through some
routed path — which never contains it.  `connections` is modelled as
`ℕ → Option ℕ` (`none` = `NaN`), and the `determine_path` call as an
oracle `ℕ → List ℕ` giving the routed path of each processed leaf. -/

structure SolveState where
  stored : ℕ → Option (List ℕ)
  depth : ℕ → ℚ
  considered : ℕ → Bool
  i : ℕ

/-- `nodes.loc[path, "considered"] = True`. -/
def markConsidered (c : ℕ → Bool) (p : List ℕ) : ℕ → Bool :=
  p.foldl (fun c n => Function.update c n true) c

/-- The body of the `for node in leaf_nodes` loop: skip already-considered
nodes, otherwise route the node and apply `set_paths`, `set_depth` and the
considered-marking to its path. -/
def processLeaf (oracle : ℕ → List ℕ) (mns : ℚ) (len : ℕ → ℕ → ℚ)
    (σ : SolveState) (node : ℕ) : SolveState :=
  if σ.considered node then σ
  else
    { stored := set_paths σ.stored (oracle node)
      depth := set_depth mns len σ.depth (oracle node)
      considered := markConsidered σ.considered (oracle node)
      i := σ.i }

/-- One iteration of the while loop: process this pass's leaf nodes
(`nodes.index[nodes.connections == i]`, in index order), then `i += 1`. -/
def loopBody (nodesIdx : List ℕ) (connections : ℕ → Option ℕ)
    (oracle : ℕ → List ℕ) (mns : ℚ) (len : ℕ → ℕ → ℚ) (σ : SolveState) :
    SolveState :=
  let leaves := nodesIdx.filter (fun n => decide (connections n = some σ.i))
  let σ2 := leaves.foldl (processLeaf oracle mns len) σ
  { σ2 with i := σ2.i + 1 }

/-- `nodes["considered"].all()`. -/
def allConsidered (nodesIdx : List ℕ) (σ : SolveState) : Bool :=
  nodesIdx.all σ.considered

/-- The fuel-indexed while loop of `flow_and_height`: `none` means the
given number of iterations did not reach termination. -/
def flow_and_height_loop (nodesIdx : List ℕ) (connections : ℕ → Option ℕ)
    (oracle : ℕ → List ℕ) (mns : ℚ) (len : ℕ → ℕ → ℚ) :
    ℕ → SolveState → Option SolveState
  | 0, _ => none
  | fuel + 1, σ =>
    if allConsidered nodesIdx σ then some σ
    else flow_and_height_loop nodesIdx connections oracle mns len fuel
      (loopBody nodesIdx connections oracle mns len σ)

theorem markConsidered_of_not_mem :
    ∀ (p : List ℕ) (c : ℕ → Bool) (z : ℕ), z ∉ p → markConsidered c p z = c z := by
  intro p
  induction p with
  | nil => exact fun c z _ => rfl
  | cons n rest ih =>
    intro c z hz
    have hzn : z ≠ n := fun h => hz (h ▸ List.mem_cons_self n rest)
    have hzr : z ∉ rest := fun h => hz (List.mem_cons_of_mem n h)
    show markConsidered (Function.update c n true) rest z = c z
    rw [ih _ z hzr, Function.update_noteq hzn]

theorem processLeaf_keeps (oracle : ℕ → List ℕ) (mns : ℚ) (len : ℕ → ℕ → ℚ)
    (σ : SolveState) (node z : ℕ) (hz : z ∉ oracle node) :
    (processLeaf oracle mns len σ node).considered z = σ.considered z := by
  unfold processLeaf
  split
  · rfl
  · exact markConsidered_of_not_mem (oracle node) σ.considered z hz

theorem foldl_processLeaf_keeps (oracle : ℕ → List ℕ) (mns : ℚ)
    (len : ℕ → ℕ → ℚ) (z : ℕ) :
    ∀ (leaves : List ℕ) (σ : SolveState), (∀ n ∈ leaves, z ∉ oracle n) →
      (leaves.foldl (processLeaf oracle mns len) σ).considered z =
        σ.considered z := by
  intro leaves
  induction leaves with
  | nil => exact fun σ _ => rfl
  | cons n rest ih =>
    intro σ hz
    rw [List.foldl_cons,
      ih _ (fun m hm => hz m (List.mem_cons_of_mem n hm)),
      processLeaf_keeps oracle mns len σ n z (hz n (List.mem_cons_self n rest))]

theorem loopBody_keeps (nodesIdx : List ℕ) (connections : ℕ → Option ℕ)
    (oracle : ℕ → List ℕ) (mns : ℚ) (len : ℕ → ℕ → ℚ) (σ : SolveState) (z : ℕ)
    (hzc : connections z = none) (hz : ∀ n, n ≠ z → z ∉ oracle n) :
    (loopBody nodesIdx connections oracle mns len σ).considered z =
      σ.considered z := by
  unfold loopBody
  refine foldl_processLeaf_keeps oracle mns len z _ σ ?_
  intro n hn
  have hconn : connections n = some σ.i := by
    have := List.of_mem_filter hn
    simpa using this
  refine hz n ?_
  intro hnz
  rw [hnz, hzc] at hconn
  exact Option.noConfusion hconn

/-- **C9.** An isolated node is never marked considered, so the while loop of
`flow_and_height` never terminates, for any amount of fuel: with a node `z`
that carries no `connections` count (`NaN`: it is referenced by no edge) and
lies on no routed path of any other node, every state in which `z` is not yet
considered loops forever.  The claim's fatal `Unreachable` error is never
raised — the code has no error path at all here; it hangs. -/
theorem flow_and_height_isolated_node_never_terminates
    (nodesIdx : List ℕ) (connections : ℕ → Option ℕ) (oracle : ℕ → List ℕ)
    (mns : ℚ) (len : ℕ → ℕ → ℚ) (z : ℕ)
    (hz_mem : z ∈ nodesIdx)
    (hz_conn : connections z = none)
    (hz_oracle : ∀ n, n ≠ z → z ∉ oracle n) :
    ∀ (fuel : ℕ) (σ : SolveState), σ.considered z = false →
      flow_and_height_loop nodesIdx connections oracle mns len fuel σ = none := by
  intro fuel
  induction fuel with
  | zero => exact fun σ _ => rfl
  | succ fuel ih =>
    intro σ hσ
    have hall : ¬ allConsidered nodesIdx σ = true := by
      intro hc
      have := List.all_eq_true.mp hc z hz_mem
      rw [hσ] at this
      exact Bool.noConfusion this
    show (if allConsidered nodesIdx σ then some σ else _) = none
    rw [if_neg hall]
    exact ih _ (by
      rw [loopBody_keeps nodesIdx connections oracle mns len σ z hz_conn hz_oracle]
      exact hσ)

theorem flow_and_height_isolated_node_never_terminates_witness :
    flow_and_height_loop [0, 1, 2]
      (fun n => if n = 2 then none else some 1)
      (fun _ => [0, 1]) (1/500) (fun _ _ => 1) 100
      { stored := fun _ => none
        depth := fun _ => 11/10
        considered := fun n => decide (n = 1)
        i := 1 } = none :=
  flow_and_height_isolated_node_never_terminates [0, 1, 2]
    (fun n => if n = 2 then none else some 1) (fun _ => [0, 1])
    (1/500) (fun _ _ => 1) 2
    (by decide) rfl
    (by intro n _; show (2 : ℕ) ∉ [0, 1]; decide)
    100 _ rfl

/-! ## Frame effects of the pipeline functions (claim C10)

A Python caller's `nodes`/`edges` bindings are modelled as cells of a store
`σ : ℕ → α` addressed by references.  `flow_and_height` (lines 64–65) and
`flow_amount` (lines 259–260) each begin with `nodes = nodes.copy()` /
`edges = edges.copy()`, rebinding their locals to two freshly allocated
cells; every statement after that reads and writes only those fresh cells
(the rest of the body is abstracted as `body`, since *which* values it
computes is irrelevant to the frame property).  `diameter_calc` performs no
copy: its column write `edges["diameter"] = ...` and the per-row `.at`
writes hit the caller's cell itself, and it returns that same reference. -/

/-- The shared effect shape of `flow_and_height` and `flow_amount`: copy the
two argument cells into fresh references `next`, `next + 1`, compute on the
copies, and return the fresh references. -/
def copyThenCompute {α : Type} (body : α → α → α × α) (σ : ℕ → α)
    (next rn re : ℕ) : (ℕ → α) × ℕ × ℕ × ℕ :=
  let σ1 := Function.update σ next (σ rn)
  let σ2 := Function.update σ1 (next + 1) (σ1 re)
  let r := body (σ2 next) (σ2 (next + 1))
  let σ3 := Function.update σ2 next r.1
  let σ4 := Function.update σ3 (next + 1) r.2
  (σ4, next + 2, next, next + 1)

/-- An edge table for the diameter pass: the `(flow, precise_diam)` rows and
the `diameter` column, which is absent (`none`) before `diameter_calc` and
filled by it. -/
structure EdgeTab where
  rows : List (ℚ × ℚ)
  diam : Option (List (Option ℚ))

/-- The value `diameter_calc` leaves in the edge table: the same rows plus
the computed `diameter` column. -/
def diameter_calc_df (dl : List ℚ) (t : EdgeTab) : EdgeTab :=
  { rows := t.rows, diam := some (diameter_calc dl t.rows) }

/-- `diameter_calc` at the store level: it writes through the caller's
reference `re` (no copy) and returns that same reference. -/
def diameter_calc_st (dl : List ℚ) (σ : ℕ → EdgeTab) (re : ℕ) :
    (ℕ → EdgeTab) × ℕ :=
  (Function.update σ re (diameter_calc_df dl (σ re)), re)

/-- **C10.** `flow_and_height` and `flow_amount` leave the caller's two
cells untouched (they copy first and write only the copies), for *any*
body computed on the copies; `diameter_calc` overwrites the caller's edge
cell in place — afterwards that cell holds the same rows with the
`diameter` column added, a value different from what the caller stored
whenever the column was previously absent. -/
theorem frame_effects_copy_vs_inplace {α : Type} (body bodyF : α → α → α × α)
    (σ : ℕ → α) (next rn re : ℕ) (hrn : rn < next) (hre : re < next)
    (σe : ℕ → EdgeTab) (r : ℕ) (dl : List ℚ) (hdiam : (σe r).diam = none) :
    ((copyThenCompute body σ next rn re).1 rn = σ rn
      ∧ (copyThenCompute body σ next rn re).1 re = σ re)
    ∧ ((copyThenCompute bodyF σ next rn re).1 rn = σ rn
      ∧ (copyThenCompute bodyF σ next rn re).1 re = σ re)
    ∧ ((diameter_calc_st dl σe r).1 r = diameter_calc_df dl (σe r)
      ∧ (diameter_calc_st dl σe r).1 r ≠ σe r) := by
  have frame : ∀ (b : α → α → α × α) (x : ℕ), x < next →
      (copyThenCompute b σ next rn re).1 x = σ x := by
    intro b x hx
    have h1 : x ≠ next := Nat.ne_of_lt hx
    have h2 : x ≠ next + 1 := Nat.ne_of_lt (Nat.lt_succ_of_lt hx)
    unfold copyThenCompute
    dsimp only
    rw [Function.update_noteq h2, Function.update_noteq h1,
      Function.update_noteq h2, Function.update_noteq h1]
  refine ⟨⟨frame body rn hrn, frame body re hre⟩,
    ⟨frame bodyF rn hrn, frame bodyF re hre⟩, ?_, ?_⟩
  · unfold diameter_calc_st
    exact Function.update_same r _ σe
  · unfold diameter_calc_st
    dsimp only
    rw [Function.update_same]
    intro hc
    have : (diameter_calc_df dl (σe r)).diam = (σe r).diam := by rw [hc]
    rw [hdiam] at this
    exact Option.noConfusion this

theorem frame_effects_copy_vs_inplace_witness :
    ((copyThenCompute (fun a b => (a + b, b)) (fun n => n) 5 0 1).1 0 = 0
      ∧ (copyThenCompute (fun a b => (a + b, b)) (fun n => n) 5 0 1).1 1 = 1)
    ∧ ((copyThenCompute (fun a b => (a, a * b)) (fun n => n) 5 0 1).1 0 = 0
      ∧ (copyThenCompute (fun a b => (a, a * b)) (fun n => n) 5 0 1).1 1 = 1)
    ∧ ((diameter_calc_st [1, 4] (fun _ => ⟨[(1, 2)], none⟩) 0).1 0
          = diameter_calc_df [1, 4] ((fun (_ : ℕ) => EdgeTab.mk [(1, 2)] none) 0)
      ∧ (diameter_calc_st [1, 4] (fun _ => ⟨[(1, 2)], none⟩) 0).1 0
          ≠ (fun (_ : ℕ) => EdgeTab.mk [(1, 2)] none) 0) :=
  frame_effects_copy_vs_inplace (fun a b => (a + b, b)) (fun a b => (a, a * b))
    (fun n => n) 5 0 1 (by decide) (by decide)
    (fun _ => ⟨[(1, 2)], none⟩) 0 [1, 4] rfl

end APDUDS
